import Mathlib

/-!
Shallow embedding of the core logic of `src/loom-dl.js` (a video share-page
downloader): the URL-extraction pipeline of `fetchLoomDownloadUrl`, the
`backoff` retry wrapper, `extractId`, the dedup-log filtering of
`downloadFromList`, the per-task success/append behaviour of `downloadTask`,
and the in-flight counting of `asyncPool`.
-/

/-- JavaScript truthiness of an optional string value: present and non-empty. -/
def truthy : Option String → Bool
  | some s => s != ""
  | none => false

/-- Character-list version of string prefix testing (used to model
`String.prototype.startsWith`). -/
def listStartsWith : List Char → List Char → Bool
  | _, [] => true
  | [], _ :: _ => false
  | c :: cs, p :: ps => c == p && listStartsWith cs ps

/-- `key.startsWith(pre)` of JavaScript, on the characters of the strings. -/
def jsStartsWith (s pre : String) : Bool := listStartsWith s.data pre.data

/-- One `RegularUserVideo:*` record of the parsed `window.__APOLLO_STATE__`
blob, keeping only the two fields the code reads: the `url` field of the
M3U8-mimes entry and of the DASH-mimes entry (`none` when the entry or its
`url` field is absent). -/
structure CdnRecord where
  m3u8Url : Option String
  dashUrl : Option String
deriving DecidableEq, Repr

/-- The `for (const key in apolloState)` loop of `fetchLoomDownloadUrl`
(src/loom-dl.js:106-130): for each key starting with `RegularUserVideo:`,
take the M3U8 url if truthy (and `break`), else the DASH url if truthy
(and `break`), else keep scanning.  Key order is the object's insertion
order, i.e. order of appearance in the JSON text. -/
def apolloScan : List (String × CdnRecord) → Option String
  | [] => none
  | (key, videoData) :: rest =>
    if jsStartsWith key "RegularUserVideo:" then
      if truthy videoData.m3u8Url then videoData.m3u8Url
      else if truthy videoData.dashUrl then videoData.dashUrl
      else apolloScan rest
    else apolloScan rest

/-- Abstraction of one fetched share-page HTML document, recording what each
regex-based strategy of `fetchLoomDownloadUrl` finds in the raw text:
the parsed `window.__APOLLO_STATE__` object (`none` when the regex does not
match or `JSON.parse` throws — both fall through identically), the list of
matches of the `https://...mp4...` regex in text order (`[]` when
`html.match` returns `null`), and the first captured group of the
`"videoUrl"`, `"downloadUrl"` and `"...video...": "https://..."` regexes
(`none` when there is no match; the capture groups are non-empty by the
regexes' shapes, and the code re-checks truthiness). -/
structure PageData where
  apolloState : Option (List (String × CdnRecord))
  mp4Matches : List String
  videoUrlField : Option String
  downloadUrlField : Option String
  videoKeyField : Option String

/-- `mp4Matches.reduce((longest, current) => current.length > longest.length ? current : longest)`
guarded by `mp4Matches.length > 0` (src/loom-dl.js:140-144). -/
def jsReduceLongest : List String → Option String
  | [] => none
  | x :: xs =>
    some (xs.foldl (fun longest current =>
      if longest.length < current.length then current else longest) x)

/-- `.replace(/\\u002F/g, '/')` applied to the inline-field matches. -/
def normalizeSlashes (s : String) : String := s.replace "\\u002F" "/"

/-- Methods 1-5 of `fetchLoomDownloadUrl` (src/loom-dl.js:95-174): Apollo
state scan, then longest direct `.mp4` link, then the `videoUrl`,
`downloadUrl` and generic `video` inline fields (each with
unicode-escaped-slash normalization).  Returns the first hit, else `none`
(`videoUrl` still `null`). -/
def extractVideoUrl (page : PageData) : Option String :=
  let method1 :=
    match page.apolloState with
    | some apolloState => apolloScan apolloState
    | none => none
  match method1 with
  | some u => some u
  | none =>
    match jsReduceLongest page.mp4Matches with
    | some u => some u
    | none =>
      if truthy page.videoUrlField then
        some (normalizeSlashes (page.videoUrlField.getD ""))
      else if truthy page.downloadUrlField then
        some (normalizeSlashes (page.downloadUrlField.getD ""))
      else if truthy page.videoKeyField then
        some (normalizeSlashes (page.videoKeyField.getD ""))
      else none

/-- The message of the error thrown at src/loom-dl.js:198. -/
def noUrlErrorMsg : String :=
  "No video download URL found. The video might be private or the download might be disabled."

/-- Tail of `fetchLoomDownloadUrl` (src/loom-dl.js:176-201): when no in-page
strategy produced a URL, fall back to the old transcoded-url API
(`oldApiUrl` abstracts its `data.url`, `none` when the request fails or the
field is missing); when that also yields nothing, `throw new Error(...)`,
modelled as `Except.error`.  A successful extraction is `Except.ok`. -/
def fetchLoomDownloadUrl (page : PageData) (oldApiUrl : Option String) :
    Except String String :=
  match extractVideoUrl page with
  | some u => Except.ok u
  | none =>
    if truthy oldApiUrl then Except.ok (oldApiUrl.getD "")
    else Except.error noUrlErrorMsg

/-- The retry wrapper at src/loom-dl.js:215:
`backoff(retries, fn, delay) = fn().catch(err => retries > 1 && delay <= 32000 ?
wait(delay).then(() => backoff(retries - 1, fn, delay * 2)) : Promise.reject(err))`.
`fn` is modelled as the sequence of outcomes of its successive executions
(`fn k` is the result of the `k`-th call); the second component collects the
waits that were scheduled, in order.  `retries > 1` is matched as
`retries = r + 2` on naturals, and the recursive call uses
`retries - 1 = r + 1`, `delay * 2`. -/
def backoff {ε α : Type} : Nat → (Nat → Except ε α) → Nat → Nat → Except ε α × List Nat
  | 0, fn, _delay, k =>
    match fn k with
    | Except.ok v => (Except.ok v, [])
    | Except.error e => (Except.error e, [])
  | 1, fn, _delay, k =>
    match fn k with
    | Except.ok v => (Except.ok v, [])
    | Except.error e => (Except.error e, [])
  | r + 2, fn, delay, k =>
    match fn k with
    | Except.ok v => (Except.ok v, [])
    | Except.error e =>
      if delay ≤ 32000 then
        let rest := backoff (r + 1) fn (delay * 2) (k + 1)
        (rest.1, delay :: rest.2)
      else (Except.error e, [])

/-- `String.prototype.split` with a one-character separator, on the list of
characters: always returns a non-empty list of groups; adjacent separators
and separators at the ends produce empty groups, as in JavaScript. -/
def jsSplit (sep : Char) : List Char → List (List Char)
  | [] => [[]]
  | c :: cs =>
    match jsSplit sep cs with
    | [] => [[]]
    | g :: gs => if c = sep then [] :: g :: gs else (c :: g) :: gs

/-- `extractId` (src/loom-dl.js:343-346):
`url = url.split('?')[0]; return url.split('/').pop();` — `[0]` is the head
of the (always non-empty) split, `.pop()` its last element. -/
def extractId (url : String) : String :=
  let beforeQuery := (jsSplit '?' url.data).headD []
  String.mk ((jsSplit '/' beforeQuery).getLastD [])

/-- The final path segment per the spec's words: the part of the URL before
the first `?` (query string stripped), then the suffix after the last `/`. -/
def finalPathSegment (url : String) : String :=
  String.mk (((url.data.takeWhile (fun c => c ≠ '?')).reverse.takeWhile
    (fun c => c ≠ '/')).reverse)

/-- `split(/\r?\n/)` on the characters of a file's content: groups separated
by `"\n"` or `"\r\n"`; a lone `'\r'` not followed by `'\n'` is ordinary text. -/
def splitLines : List Char → List (List Char)
  | [] => [[]]
  | '\r' :: '\n' :: cs => [] :: splitLines cs
  | '\n' :: cs => [] :: splitLines cs
  | c :: cs =>
    match splitLines cs with
    | [] => [[]]
    | g :: gs => (c :: g) :: gs

/-- `String.prototype.trim`: strip leading and trailing whitespace. -/
def jsTrim (s : String) : String :=
  String.mk (((s.data.dropWhile Char.isWhitespace).reverse.dropWhile
    Char.isWhitespace).reverse)

/-- `readDownloadedLog` (src/loom-dl.js:334-341): the lines of
`downloaded.log` (a missing file is the empty content, giving `[""]`, which
never matches a non-blank URL).  The JavaScript `Set` is modelled as the
list of lines with membership lookup. -/
def readDownloadedLog (logContent : String) : List String :=
  (splitLines logContent.data).map (fun l => String.mk l)

/-- The task list computed by `downloadFromList` (src/loom-dl.js:454):
`fileContent.split(/\r?\n/).filter(url => url.trim() && !downloadedSet.has(url))`. -/
def downloadFromListUrls (fileContent : String) (downloadedSet : List String) :
    List String :=
  ((splitLines fileContent.data).map (fun l => String.mk l)).filter
    (fun url => jsTrim url != "" && !(downloadedSet.contains url))

/-- `downloadTask` (src/loom-dl.js:458-473), abstracted to its effect on the
dedup log: the whole body is wrapped in try/catch, `appendToLogFile(url)`
runs only after the download pipeline succeeded, and a failure is caught and
only logged.  `succeeds url` abstracts whether the fetch-and-download
pipeline for `url` ultimately succeeds. -/
def downloadTask (succeeds : String → Bool) (log : List String) (url : String) :
    List String :=
  if succeeds url then log ++ [url] else log

/-- Sequential run of the batch over its task list, returning the list of
attempted URLs and the final dedup log. -/
def downloadFromListRun (succeeds : String → Bool) :
    List String → List String → List String × List String
  | [], log => ([], log)
  | url :: rest, log =>
    let log' := downloadTask succeeds log url
    let r := downloadFromListRun succeeds rest log'
    (url :: r.1, r.2)

/-- The cooldown awaited after a successful task in `downloadTask`
(src/loom-dl.js:469): the code always runs `await delay(5000)`; the parsed
`argv.timeout` value (src/loom-dl.js:34-38, validated at src/loom-dl.js:46)
is never consulted there, so the function of the CLI value is constant. -/
def downloadTaskCooldownMs (_argvTimeout : Option Nat) : Nat := 5000

/-- In-flight task counts of `asyncPool` (src/loom-dl.js:431-447), as the
trace of the number of started-but-not-finished tasks after each event of
the loop.  Per iteration: a task starts (`inFlight + 1`); when
`poolLimit <= array.length` the task is tracked in `executing`, and when
`executing.length >= poolLimit` the loop awaits `Promise.race(executing)`,
during which at least one and at most all in-flight tasks complete and
splice themselves out — `oracle i` (clamped) chooses how many.  When
`poolLimit > array.length` nothing is awaited inside the loop, so no task
completes before the loop ends. -/
def asyncPoolTrace (poolLimit arrayLen : Nat) (oracle : Nat → Nat) :
    Nat → Nat → Nat → List Nat
  | 0, _, _ => []
  | remaining + 1, i, inFlight =>
    let started := inFlight + 1
    if poolLimit ≤ arrayLen then
      if poolLimit ≤ started then
        let completed := max 1 (min (oracle i) started)
        let afterAwait := started - completed
        started :: afterAwait ::
          asyncPoolTrace poolLimit arrayLen oracle remaining (i + 1) afterAwait
      else
        started :: asyncPoolTrace poolLimit arrayLen oracle remaining (i + 1) started
    else
      started :: asyncPoolTrace poolLimit arrayLen oracle remaining (i + 1) started

/-- The in-flight trace of a whole `asyncPool(poolLimit, array, ...)` call
with `array.length = arrayLen`. -/
def asyncPool (poolLimit arrayLen : Nat) (oracle : Nat → Nat) : List Nat :=
  asyncPoolTrace poolLimit arrayLen oracle arrayLen 0 0

/-- All truthy M3U8-class media URLs of the `RegularUserVideo:*` records of
an Apollo state blob (for stating which format classes are present). -/
def m3u8UrlsIn (st : List (String × CdnRecord)) : List String :=
  st.filterMap (fun kv =>
    if jsStartsWith kv.1 "RegularUserVideo:" && truthy kv.2.m3u8Url then
      kv.2.m3u8Url
    else none)

/-- All truthy DASH-class media URLs of the `RegularUserVideo:*` records of
an Apollo state blob. -/
def dashUrlsIn (st : List (String × CdnRecord)) : List String :=
  st.filterMap (fun kv =>
    if jsStartsWith kv.1 "RegularUserVideo:" && truthy kv.2.dashUrl then
      kv.2.dashUrl
    else none)

/-- An Apollo state blob whose first video record carries only a DASH URL
and whose second carries only an M3U8 URL. -/
def dashFirstApolloState : List (String × CdnRecord) :=
  [("RegularUserVideo:a", ⟨none, some "https://cdn.loom.com/dash-manifest.mpd"⟩),
   ("RegularUserVideo:b", ⟨some "https://cdn.loom.com/hls-playlist.m3u8", none⟩)]

/-- A page whose only extraction material is `dashFirstApolloState`. -/
def dashFirstPage : PageData :=
  ⟨some dashFirstApolloState, [], none, none, none⟩

/-! ## Lemmas about `backoff` -/

lemma backoff_no_retry {ε α : Type} (fn : Nat → Except ε α)
    (retries delay k : Nat) (e : ε) (hfk : fn k = Except.error e)
    (h : ¬(1 < retries ∧ delay ≤ 32000)) :
    backoff retries fn delay k = (Except.error e, []) := by
  match retries with
  | 0 => simp [backoff, hfk]
  | 1 => simp [backoff, hfk]
  | r + 2 =>
    have hd : ¬ delay ≤ 32000 := by
      intro hle; exact h ⟨by omega, hle⟩
    simp [backoff, hfk, hd]

lemma backoff_retry {ε α : Type} (fn : Nat → Except ε α)
    (retries delay k : Nat) (e : ε) (hfk : fn k = Except.error e)
    (hr : 1 < retries) (hd : delay ≤ 32000) :
    backoff retries fn delay k =
      ((backoff (retries - 1) fn (delay * 2) (k + 1)).1,
        delay :: (backoff (retries - 1) fn (delay * 2) (k + 1)).2) := by
  obtain ⟨r, rfl⟩ : ∃ r, retries = r + 2 := ⟨retries - 2, by omega⟩
  simp [backoff, hfk, hd]

lemma backoff_waits_length_le {ε α : Type} (fn : Nat → Except ε α) :
    ∀ retries n delay k, 32000 < delay * 2 ^ n →
      ((backoff retries fn delay k).2).length ≤ n := by
  intro retries
  induction retries using Nat.strong_induction_on with
  | _ retries ih =>
    intro n delay k h
    match retries, ih with
    | 0, _ => cases hfk : fn k <;> simp [backoff, hfk]
    | 1, _ => cases hfk : fn k <;> simp [backoff, hfk]
    | r + 2, ih =>
      cases hfk : fn k with
      | ok v => simp [backoff, hfk]
      | error e =>
        by_cases hd : delay ≤ 32000
        · obtain ⟨m, rfl⟩ : ∃ m, n = m + 1 := by
            refine ⟨n - 1, ?_⟩
            rcases n with _ | m
            · simp at h; omega
            · omega
          have hpow : delay * 2 * 2 ^ m = delay * 2 ^ (m + 1) := by ring
          have hrec := ih (r + 1) (by omega) m (delay * 2) (k + 1) (by omega)
          simp [backoff, hfk, hd]
          omega
        · simp [backoff, hfk, hd]

/-- C2: the retry wrapper re-executes the attempt exactly when the remaining
retry count is greater than 1 and the current delay is at most 32000 ms,
doubling the delay for the recursion; in particular, on an always-failing
attempt, `backoff(3, fn, 1000)` performs exactly 3 attempts (the wait list
`[1000, 2000]` has one entry per re-execution), with waits of 1000 ms and
then 2000 ms, and propagates the failing attempt's error unchanged. -/
theorem c2_backoff_behaviour (ε α : Type) :
    (∀ (retries delay k : Nat) (fn : Nat → Except ε α) (e : ε),
        fn k = Except.error e → ¬(1 < retries ∧ delay ≤ 32000) →
        backoff retries fn delay k = (Except.error e, [])) ∧
    (∀ (retries delay k : Nat) (fn : Nat → Except ε α) (e : ε),
        fn k = Except.error e → 1 < retries → delay ≤ 32000 →
        backoff retries fn delay k =
          ((backoff (retries - 1) fn (delay * 2) (k + 1)).1,
            delay :: (backoff (retries - 1) fn (delay * 2) (k + 1)).2)) ∧
    (∀ fn : Nat → Except ε α, (∀ j, ∃ e, fn j = Except.error e) →
        backoff 3 fn 1000 0 = (fn 2, [1000, 2000])) := by
  refine ⟨fun retries delay k fn e hfk h => backoff_no_retry fn retries delay k e hfk h,
    fun retries delay k fn e hfk hr hd => backoff_retry fn retries delay k e hfk hr hd,
    fun fn hfail => ?_⟩
  obtain ⟨e0, h0⟩ := hfail 0
  obtain ⟨e1, h1⟩ := hfail 1
  obtain ⟨e2, h2⟩ := hfail 2
  rw [h2]
  simp [backoff, h0, h1, h2]

/-- Witness for C2: the always-failing attempt `fun _ => Except.error "boom"`
run through `backoff 3 _ 1000` yields the waits 1000 ms and 2000 ms and the
third attempt's error. -/
theorem c2_witness :
    backoff 3 (fun _ => (Except.error "boom" : Except String Unit)) 1000 0
      = ((fun _ => (Except.error "boom" : Except String Unit)) 2, [1000, 2000]) :=
  (c2_backoff_behaviour String Unit).2.2 (fun _ => Except.error "boom")
    (fun _ => ⟨"boom", rfl⟩)

/-- C10: with the default initial delay of 1000 ms, the retry wrapper
schedules at most 6 waits for every retry count and every attempt, hence at
most 7 attempts in total (each `backoff` call executes the attempt exactly
once and recurses exactly when it records one wait, so the number of
attempts is the number of waits plus one). -/
theorem c10_backoff_bounded_attempts (ε α : Type) (fn : Nat → Except ε α)
    (retries k : Nat) :
    ((backoff retries fn 1000 k).2).length ≤ 6 ∧
    ((backoff retries fn 1000 k).2).length + 1 ≤ 7 := by
  have h := backoff_waits_length_le fn retries 6 1000 k (by norm_num)
  omega

/-- C4: the `--timeout` value does not override the inter-download cooldown:
`downloadTask` waits a constant 5000 ms after a successful download even when
`--timeout 1000` was supplied, contradicting the option's own description
(`Timeout in milliseconds to wait between downloads when using --list`). -/
theorem c4_cooldown_ignores_timeout :
    downloadTaskCooldownMs (some 1000) = 5000 ∧ (5000 : Nat) ≠ 1000 :=
  ⟨rfl, by decide⟩

/-- C6: a failing task does not abort the batch — every URL of the task list
is attempted — and the dedup log gains exactly the URLs of the tasks that
succeeded (a failed task's URL is never appended). -/
theorem c6_batch_failure_isolation (succeeds : String → Bool)
    (urls log : List String) :
    downloadFromListRun succeeds urls log = (urls, log ++ urls.filter succeeds) := by
  induction urls generalizing log with
  | nil => simp [downloadFromListRun]
  | cons u rest ih =>
    simp only [downloadFromListRun, downloadTask, ih]
    by_cases h : succeeds u = true <;> simp [h, List.filter_cons]

/-! ## Batch dedup filtering (C5) -/

/-- C5: a URL present in the dedup log loaded at batch start is never in the
attempted task list; in particular, with a log containing URL A and the input
list `[A, B]`, only B is attempted. -/
theorem c5_dedup_log_excludes :
    (∀ (fileContent : String) (downloadedSet : List String) (url : String),
        url ∈ downloadedSet →
        url ∉ downloadFromListUrls fileContent downloadedSet) ∧
    downloadFromListUrls
        "https://www.loom.com/share/aaa\nhttps://www.loom.com/share/bbb"
        (readDownloadedLog "https://www.loom.com/share/aaa\n")
      = ["https://www.loom.com/share/bbb"] := by
  constructor
  · intro fileContent downloadedSet url hmem hattempt
    have h := List.of_mem_filter hattempt
    simp only [Bool.and_eq_true, Bool.not_eq_true'] at h
    exact absurd hmem (by simpa using h.2)
  · decide

/-- Witness for C5: with a dedup log holding URL A and input list [A, B],
URL A is not attempted. -/
theorem c5_witness :
    ("https://www.loom.com/share/aaa" ∈
      (["https://www.loom.com/share/aaa"] : List String)) ∧
    "https://www.loom.com/share/aaa" ∉
      downloadFromListUrls
        "https://www.loom.com/share/aaa\nhttps://www.loom.com/share/bbb"
        ["https://www.loom.com/share/aaa"] :=
  ⟨by decide, c5_dedup_log_excludes.1 _ _ _ (by decide)⟩

/-! ## Concurrency bound of `asyncPool` (C7) -/

lemma asyncPoolTrace_le (poolLimit arrayLen : Nat) (oracle : Nat → Nat) :
    ∀ (remaining i inFlight : Nat), inFlight < poolLimit →
      inFlight + remaining ≤ arrayLen →
      ∀ x ∈ asyncPoolTrace poolLimit arrayLen oracle remaining i inFlight,
        x ≤ poolLimit := by
  intro remaining
  induction remaining with
  | zero =>
    intro i inFlight _ _ x hx
    simp [asyncPoolTrace] at hx
  | succ rem ih =>
    intro i inFlight hlt hle x hx
    simp only [asyncPoolTrace] at hx
    by_cases h1 : poolLimit ≤ arrayLen
    · rw [if_pos h1] at hx
      by_cases h2 : poolLimit ≤ inFlight + 1
      · rw [if_pos h2] at hx
        rcases List.mem_cons.mp hx with rfl | hx'
        · omega
        rcases List.mem_cons.mp hx' with rfl | hx''
        · omega
        · exact ih (i + 1) _ (by omega) (by omega) x hx''
      · rw [if_neg h2] at hx
        rcases List.mem_cons.mp hx with rfl | hx'
        · omega
        · exact ih (i + 1) _ (by omega) (by omega) x hx'
    · rw [if_neg h1] at hx
      rcases List.mem_cons.mp hx with rfl | hx'
      · omega
      · exact ih (i + 1) _ (by omega) (by omega) x hx'

/-- C7 (amended): for every concurrency limit of at least 1, every input
list length and every completion schedule, the number of tasks
simultaneously in flight in `asyncPool` never exceeds the limit. -/
theorem c7_pool_never_exceeds_limit (poolLimit arrayLen : Nat)
    (oracle : Nat → Nat) (hL : 1 ≤ poolLimit) :
    ∀ x ∈ asyncPool poolLimit arrayLen oracle, x ≤ poolLimit :=
  asyncPoolTrace_le poolLimit arrayLen oracle arrayLen 0 0 (by omega) (by omega)

/-- Counterexample for C7 as stated: with concurrency limit 0 and a
one-element list, `asyncPool` still starts the task, so one task is in
flight, exceeding the limit. -/
theorem c7_counterexample :
    1 ∈ asyncPool 0 1 (fun _ => 1) ∧ ¬(1 ≤ 0) := by decide

/-- Witness for C7: with limit 2 and 3 tasks, the observed in-flight count 2
does not exceed the limit. -/
theorem c7_witness : (1 ≤ 2) ∧ (2 ≤ 2) :=
  ⟨by decide, c7_pool_never_exceeds_limit 2 3 (fun _ => 1) (by decide) 2 (by decide)⟩

/-! ## Longest direct media link (C9) -/

lemma jsReduceLongest_spec (xs : List String) :
    ∀ a : String, ∃ u, jsReduceLongest (a :: xs) = some u ∧ u ∈ a :: xs ∧
      ∀ v ∈ a :: xs, v.length ≤ u.length := by
  induction xs with
  | nil =>
    intro a
    exact ⟨a, rfl, by simp, by simp⟩
  | cons x xs ih =>
    intro a
    obtain ⟨u, hu, humem, hubnd⟩ := ih (if a.length < x.length then x else a)
    have hfold : jsReduceLongest (a :: x :: xs) = jsReduceLongest
        ((if a.length < x.length then x else a) :: xs) := by
      simp [jsReduceLongest]
    refine ⟨u, hfold.trans hu, ?_, ?_⟩
    · by_cases hax : a.length < x.length
      · rw [if_pos hax] at humem
        rcases List.mem_cons.mp humem with rfl | h
        · simp
        · simp [h]
      · rw [if_neg hax] at humem
        rcases List.mem_cons.mp humem with rfl | h
        · simp
        · simp [h]
    · have hhead := hubnd _ (List.mem_cons_self _ _)
      intro v hv
      rcases List.mem_cons.mp hv with rfl | hv'
      · by_cases hax : v.length < x.length
        · rw [if_pos hax] at hhead; omega
        · rw [if_neg hax] at hhead; omega
      rcases List.mem_cons.mp hv' with rfl | hv''
      · by_cases hax : a.length < v.length
        · rw [if_pos hax] at hhead; omega
        · rw [if_neg hax] at hhead; omega
      · exact hubnd v (List.mem_cons_of_mem _ hv'')

/-- C9: when the Apollo-state strategy yields nothing and the page contains
at least one direct `.mp4` link, extraction returns a longest matching
link (member of the match list whose length bounds every match's length). -/
theorem c9_longest_mp4_link (page : PageData)
    (h1 : (match page.apolloState with
           | some apolloState => apolloScan apolloState
           | none => none) = none)
    (h2 : page.mp4Matches ≠ []) :
    ∃ u, extractVideoUrl page = some u ∧ u ∈ page.mp4Matches ∧
      ∀ v ∈ page.mp4Matches, v.length ≤ u.length := by
  obtain ⟨a, xs, hax⟩ := List.exists_cons_of_ne_nil h2
  obtain ⟨u, hu, hmem, hbnd⟩ := jsReduceLongest_spec xs a
  refine ⟨u, ?_, by rw [hax]; exact hmem, by rw [hax]; exact hbnd⟩
  simp only [extractVideoUrl]
  rw [h1, hax, hu]

/-- Witness for C9: a page with no Apollo state and two direct links yields
the longer one (as the longest member of the match list). -/
theorem c9_witness :
    ∃ u, extractVideoUrl ⟨none, ["https://x.mp4", "https://longer.mp4"],
        none, none, none⟩ = some u ∧
      u ∈ ["https://x.mp4", "https://longer.mp4"] ∧
      ∀ v ∈ ["https://x.mp4", "https://longer.mp4"], v.length ≤ u.length :=
  c9_longest_mp4_link ⟨none, ["https://x.mp4", "https://longer.mp4"],
    none, none, none⟩ rfl (List.cons_ne_nil _ _)

/-! ## Apollo-state format preference (C1) -/

lemma apolloScan_append_of_empty (pre : List (String × CdnRecord))
    (hpre : ∀ kv ∈ pre, jsStartsWith kv.1 "RegularUserVideo:" = true →
        truthy kv.2.m3u8Url = false ∧ truthy kv.2.dashUrl = false)
    (l : List (String × CdnRecord)) :
    apolloScan (pre ++ l) = apolloScan l := by
  induction pre with
  | nil => rfl
  | cons kv pre ih =>
    obtain ⟨key, videoData⟩ := kv
    have ihl := ih (fun kv hkv hstart => hpre kv (List.mem_cons_of_mem _ hkv) hstart)
    by_cases hk : jsStartsWith key "RegularUserVideo:" = true
    · have hkv := hpre (key, videoData) (List.mem_cons_self _ _) hk
      simp only [List.cons_append, apolloScan, hk, if_true, hkv.1, hkv.2,
        Bool.false_eq_true, if_false]
      exact ihl
    · simp only [List.cons_append, apolloScan, hk, if_false]
      exact ihl

/-- C1 (amended): when the first `RegularUserVideo:*` record of the Apollo
blob carrying any truthy CDN URL has both a truthy M3U8 URL and a truthy
DASH URL, extraction returns that record's M3U8 URL (the M3U8 entry wins
over the DASH entry within a record; an earlier DASH-only record, however,
wins over a later M3U8 record — see the counterexample). -/
theorem c1_m3u8_wins_within_record (page : PageData)
    (pre rest : List (String × CdnRecord)) (key : String) (v : CdnRecord)
    (hpage : page.apolloState = some (pre ++ (key, v) :: rest))
    (hpre : ∀ kv ∈ pre, jsStartsWith kv.1 "RegularUserVideo:" = true →
        truthy kv.2.m3u8Url = false ∧ truthy kv.2.dashUrl = false)
    (hkey : jsStartsWith key "RegularUserVideo:" = true)
    (hm : truthy v.m3u8Url = true)
    (_hd : truthy v.dashUrl = true) :
    extractVideoUrl page = v.m3u8Url := by
  obtain ⟨s, hs⟩ : ∃ s, v.m3u8Url = some s := by
    cases hv : v.m3u8Url with
    | some s => exact ⟨s, rfl⟩
    | none => rw [hv] at hm; simp [truthy] at hm
  have hscan : apolloScan (pre ++ (key, v) :: rest) = v.m3u8Url := by
    rw [apolloScan_append_of_empty pre hpre]
    simp [apolloScan, hkey, hm]
  simp only [extractVideoUrl, hpage, hscan, hs]

/-- Witness for C1: a record with both format classes, preceded by a record
with neither, yields the M3U8 URL. -/
theorem c1_witness :
    extractVideoUrl ⟨some [("RegularUserVideo:x", ⟨none, none⟩),
        ("RegularUserVideo:y", ⟨some "https://cdn.loom.com/hls-playlist.m3u8",
          some "https://cdn.loom.com/dash-manifest.mpd"⟩)],
      [], none, none, none⟩ = some "https://cdn.loom.com/hls-playlist.m3u8" :=
  c1_m3u8_wins_within_record
    ⟨some [("RegularUserVideo:x", ⟨none, none⟩),
        ("RegularUserVideo:y", ⟨some "https://cdn.loom.com/hls-playlist.m3u8",
          some "https://cdn.loom.com/dash-manifest.mpd"⟩)],
      [], none, none, none⟩
    [("RegularUserVideo:x", ⟨none, none⟩)] []
    "RegularUserVideo:y"
    ⟨some "https://cdn.loom.com/hls-playlist.m3u8",
      some "https://cdn.loom.com/dash-manifest.mpd"⟩
    rfl (by decide) (by decide) rfl rfl

/-- Counterexample for C1 as stated: a blob containing both an M3U8 entry
and a DASH entry (in different records) from which extraction returns the
DASH URL, not the M3U8 URL — the loop breaks at the first record with any
truthy URL, so an earlier DASH-only record beats a later M3U8 record. -/
theorem c1_counterexample :
    m3u8UrlsIn dashFirstApolloState = ["https://cdn.loom.com/hls-playlist.m3u8"] ∧
    dashUrlsIn dashFirstApolloState = ["https://cdn.loom.com/dash-manifest.mpd"] ∧
    extractVideoUrl dashFirstPage = some "https://cdn.loom.com/dash-manifest.mpd" ∧
    "https://cdn.loom.com/dash-manifest.mpd" ≠ "https://cdn.loom.com/hls-playlist.m3u8" := by
  refine ⟨by decide, by decide, ?_, by decide⟩
  rfl

/-! ## Extraction failure outcome (C3) -/

/-- C3 (amended): for a page matched by none of the in-page strategies, the
in-page extraction step itself yields no URL non-exceptionally (`none`), but
`fetchLoomDownloadUrl` then — after the old-API fallback also yields
nothing — signals the failure by throwing the labeled
"No video download URL found" error (a rejected promise the caller must
catch), not by returning a normal "not found" value. -/
theorem c3_no_match_throws (page : PageData) (oldApiUrl : Option String)
    (h1 : (match page.apolloState with
           | some apolloState => apolloScan apolloState
           | none => none) = none)
    (h2 : page.mp4Matches = [])
    (h3 : truthy page.videoUrlField = false)
    (h4 : truthy page.downloadUrlField = false)
    (h5 : truthy page.videoKeyField = false)
    (h6 : truthy oldApiUrl = false) :
    extractVideoUrl page = none ∧
    fetchLoomDownloadUrl page oldApiUrl = Except.error noUrlErrorMsg := by
  have hx : extractVideoUrl page = none := by
    simp only [extractVideoUrl, h1, h2, jsReduceLongest, h3, h4, h5,
      Bool.false_eq_true, if_false]
  exact ⟨hx, by simp only [fetchLoomDownloadUrl, hx, h6, Bool.false_eq_true, if_false]⟩

/-- Witness for C3: the empty page with a failing old-API fallback. -/
theorem c3_witness :
    extractVideoUrl ⟨none, [], none, none, none⟩ = none ∧
    fetchLoomDownloadUrl ⟨none, [], none, none, none⟩ none
      = Except.error noUrlErrorMsg :=
  c3_no_match_throws ⟨none, [], none, none, none⟩ none rfl rfl rfl rfl rfl rfl

/-- Counterexample for C3 as stated: on a page matching no strategy the
extraction step's overall outcome is the thrown error (`Except.error`), not
a normal non-exceptional "not found" value. -/
theorem c3_counterexample :
    fetchLoomDownloadUrl ⟨none, [], none, none, none⟩ none
        = Except.error noUrlErrorMsg ∧
    (fetchLoomDownloadUrl ⟨none, [], none, none, none⟩ none).isOk = false :=
  ⟨rfl, rfl⟩

/-! ## `extractId` versus the final-path-segment description (C8) -/

lemma jsSplit_ne_nil (sep : Char) : ∀ l : List Char, jsSplit sep l ≠ [] := by
  intro l
  cases l with
  | nil => simp [jsSplit]
  | cons c cs =>
    cases h : jsSplit sep cs with
    | nil => simp [jsSplit, h]
    | cons g gs =>
      simp only [jsSplit, h]
      split <;> simp

lemma jsSplit_headD (sep : Char) :
    ∀ l : List Char, (jsSplit sep l).headD [] = l.takeWhile (fun c => c ≠ sep) := by
  intro l
  induction l with
  | nil => simp [jsSplit]
  | cons c cs ih =>
    cases h : jsSplit sep cs with
    | nil => exact absurd h (jsSplit_ne_nil sep cs)
    | cons g gs =>
      rw [h] at ih
      by_cases hc : c = sep
      · subst hc
        simp [jsSplit, h, List.takeWhile_cons]
      · simp only [jsSplit, h, if_neg hc, List.takeWhile_cons, hc,
          decide_not, decide_eq_true_eq]
        simpa using ih

lemma jsSplit_of_not_mem (sep : Char) :
    ∀ l : List Char, sep ∉ l → jsSplit sep l = [l] := by
  intro l
  induction l with
  | nil => intro _; rfl
  | cons c cs ih =>
    intro h
    have hc : c ≠ sep := fun hc => h (hc ▸ List.mem_cons_self c cs)
    have hcs : sep ∉ cs := fun hm => h (List.mem_cons_of_mem _ hm)
    simp [jsSplit, ih hcs, if_neg (fun he => hc he)]

lemma jsSplit_single_inv (sep : Char) :
    ∀ (l g : List Char), jsSplit sep l = [g] → g = l ∧ sep ∉ l := by
  intro l
  induction l with
  | nil =>
    intro g h
    simp [jsSplit] at h
    subst h
    simp
  | cons c cs ih =>
    intro g h
    cases hcs : jsSplit sep cs with
    | nil => exact absurd hcs (jsSplit_ne_nil sep cs)
    | cons g' gs' =>
      simp only [jsSplit, hcs] at h
      by_cases hc : c = sep
      · rw [if_pos hc] at h
        simp at h
      · rw [if_neg hc] at h
        obtain ⟨h1, h2⟩ := List.cons.injEq .. ▸ h
        subst h2
        obtain ⟨hg, hmem⟩ := ih g' hcs
        subst hg
        refine ⟨h1.symm ▸ rfl, ?_⟩
        intro hm
        rcases List.mem_cons.mp hm with h' | h'
        · exact hc h'.symm
        · exact hmem h'

lemma jsSplit_getLastD (sep : Char) :
    ∀ l : List Char, (jsSplit sep l).getLastD []
      = (l.reverse.takeWhile (fun c => c ≠ sep)).reverse := by
  intro l
  induction l with
  | nil => rfl
  | cons c cs ih =>
    cases hcs : jsSplit sep cs with
    | nil => exact absurd hcs (jsSplit_ne_nil sep cs)
    | cons g gs =>
      rw [hcs] at ih
      by_cases hc : c = sep
      · subst hc
        have hL : (jsSplit c (c :: cs)).getLastD [] = (g :: gs).getLastD [] := by
          simp [jsSplit, hcs, List.getLastD_cons]
        have hR : ((c :: cs).reverse.takeWhile (fun c' => c' ≠ c))
            = cs.reverse.takeWhile (fun c' => c' ≠ c) := by
          rw [List.reverse_cons, List.takeWhile_append]
          split
          · next hlen =>
            have hfull : cs.reverse.takeWhile (fun c' => c' ≠ c) = cs.reverse :=
              (List.takeWhile_prefix _).eq_of_length hlen
            have hone : List.takeWhile (fun c' => c' ≠ c) [c] = [] := by
              simp [List.takeWhile_cons]
            rw [hone, List.append_nil, hfull]
          · rfl
        rw [hL, ih, hR]
      · have hsplit : jsSplit sep (c :: cs) = (c :: g) :: gs := by
          simp [jsSplit, hcs, if_neg hc]
        cases gs with
        | nil =>
          obtain ⟨hg, hnm⟩ := jsSplit_single_inv sep cs g hcs
          subst hg
          rw [hsplit]
          have hall : ∀ x ∈ g.reverse ++ [c], (decide (x ≠ sep)) = true := by
            intro x hx
            simp only [List.mem_append, List.mem_reverse, List.mem_singleton] at hx
            rcases hx with hx | rfl
            · simp only [decide_eq_true_eq]
              exact fun he => hnm (he ▸ hx)
            · simp only [decide_eq_true_eq]
              exact hc
          rw [List.reverse_cons, List.takeWhile_eq_self_iff.mpr hall]
          simp [List.getLastD_cons]
        | cons g2 gs2 =>
          have hmem : sep ∈ cs := by
            by_contra hnm
            rw [jsSplit_of_not_mem sep cs hnm] at hcs
            simp at hcs
          rw [hsplit]
          have hdef : ∀ d : List Char,
              (g2 :: gs2).getLastD d = (g2 :: gs2).getLast (by simp) := by
            intro d
            rw [List.getLastD_eq_getLast?,
              List.getLast?_eq_getLast_of_ne_nil (by simp)]
            rfl
          have hL : ((c :: g) :: g2 :: gs2).getLastD []
              = (g :: g2 :: gs2).getLastD [] := by
            rw [List.getLastD_cons [] (c :: g) (g2 :: gs2),
              List.getLastD_cons [] g (g2 :: gs2), hdef (c :: g), hdef g]
          rw [hL, ih, List.reverse_cons, List.takeWhile_append]
          split
          · next hlen =>
            exfalso
            have hfull : cs.reverse.takeWhile (fun c' => c' ≠ sep) = cs.reverse :=
              (List.takeWhile_prefix _).eq_of_length hlen
            have hsep := List.takeWhile_eq_self_iff.mp hfull sep
              (List.mem_reverse.mpr hmem)
            simp at hsep
          · rfl

lemma extractId_eq_finalPathSegment (url : String) :
    extractId url = finalPathSegment url := by
  simp only [extractId, finalPathSegment]
  rw [jsSplit_headD, jsSplit_getLastD]

lemma finalPathSegment_empty_iff (url : String) :
    finalPathSegment url = "" ↔
      (url.data.takeWhile (fun c => c ≠ '?') = [] ∨
        (url.data.takeWhile (fun c => c ≠ '?')).getLast? = some '/') := by
  have hmk : ∀ l : List Char, String.mk l = "" ↔ l = [] := by
    intro l
    constructor
    · intro h
      have hdata := congrArg String.data h
      simpa using hdata
    · rintro rfl
      rfl
  simp only [finalPathSegment]
  rw [hmk, List.reverse_eq_nil_iff]
  cases hs : (url.data.takeWhile (fun c => c ≠ '?')).reverse with
  | nil =>
    have h0 : url.data.takeWhile (fun c => c ≠ '?') = [] :=
      List.reverse_eq_nil_iff.mp hs
    exact iff_of_true rfl (Or.inl h0)
  | cons c t =>
    have hne : url.data.takeWhile (fun c => c ≠ '?') ≠ [] := by
      intro h
      rw [h] at hs
      simp at hs
    have hlast : (url.data.takeWhile (fun c => c ≠ '?')).getLast? = some c := by
      rw [← List.head?_reverse, hs]
      rfl
    rw [List.takeWhile_cons]
    by_cases hc : c = '/'
    · subst hc
      rw [if_neg (by decide : ¬(decide (('/' : Char) ≠ '/') = true))]
      exact iff_of_true rfl (Or.inr hlast)
    · rw [if_pos (decide_eq_true hc)]
      refine iff_of_false (by simp) ?_
      rintro (h1 | h2)
      · exact hne h1
      · rw [hlast] at h2
        exact hc (Option.some.inj h2)

/-- C8 (amended): `extractId` does return the final path segment of the URL
with any query string stripped (it agrees everywhere with the spec-level
description `finalPathSegment`), and
`extractId "https://example.com/share/abc123?t=5" = "abc123"`; the returned
identifier, however, is empty — not non-empty — exactly when the
query-stripped URL is empty or ends in `'/'`. -/
theorem c8_extractId_final_segment :
    (∀ url : String, extractId url = finalPathSegment url) ∧
    extractId "https://example.com/share/abc123?t=5" = "abc123" ∧
    (∀ url : String, extractId url = "" ↔
      (url.data.takeWhile (fun c => c ≠ '?') = [] ∨
        (url.data.takeWhile (fun c => c ≠ '?')).getLast? = some '/')) := by
  refine ⟨extractId_eq_finalPathSegment, by decide, fun url => ?_⟩
  rw [extractId_eq_finalPathSegment]
  exact finalPathSegment_empty_iff url

/-- Counterexample for C8 as stated: on the share URL
`https://example.com/share/?t=5` (query string present, path ending in a
slash) `extractId` returns the empty identifier, violating the claimed
non-emptiness invariant. -/
theorem c8_counterexample :
    extractId "https://example.com/share/?t=5" = "" := by decide
